import Mathlib

/-!
Shallow embedding of `src/python_scripts/etl_daily_calculate_salary_per_hour_per_branch.py`.

The script is a linear pandas pipeline: it deduplicates employee and timesheet
rows, joins them, filters out timesheet entries dated after the employee's
resignation, computes per-entry worked hours, aggregates hours and salary per
(year, month, branch), inner-joins the two aggregates and derives
`salary_per_hour`.

Modelling conventions:
  * a DataFrame is a `List` of typed row structures; numeric columns are `ℚ`
    for money/hours and `ℕ` for identifiers (pandas floats are modelled as
    exact rationals; none of the verified properties depend on binary
    floating-point artefacts);
  * calendar dates (`pd.to_datetime` of a date string normalizes to midnight,
    so comparisons are pure calendar-date comparisons) are triples
    year/month/day ordered lexicographically;
  * `checkin`/`checkout` are `pd.to_timedelta` values, modelled as seconds
    (`Option ℕ`, `none` for a null/NaT cell);
  * pandas `groupby` sorts the group keys; we emit the groups in
    first-occurrence `dedup` order instead (a generic key type carries no
    order).  Every property stated below is independent of row order;
  * `np.round` rounds half to even at the given number of decimals; we model
    it exactly on `ℚ`.
-/

namespace SalaryPerHour

/-- A calendar date (a `pd.Timestamp` at midnight). -/
structure Date where
  year : ℕ
  month : ℕ
  day : ℕ
deriving DecidableEq, Repr

/-- Chronological comparison of two dates: lexicographic on
(year, month, day), as `pd.Timestamp` comparison behaves on midnight
timestamps. -/
def Date.leb (a b : Date) : Bool :=
  decide (a.year < b.year ∨ (a.year = b.year ∧
    (a.month < b.month ∨ (a.month = b.month ∧ a.day ≤ b.day))))

/-- Per-entry worked hours, the scalar core of
`TimesheetEmployeeProcessor.calculate_work_hour` (lines 104-122):
`np.where(checkin > checkout, 0, (checkout - checkin).dt.total_seconds() / 3600)`
followed by `.fillna(0)`.

A NaT (`none`) on either side makes the `>` comparison `False` and the
subtraction NaN, which `fillna` turns into `0`, hence the catch-all arm. -/
def calculate_work_hour (checkin checkout : Option ℕ) : ℚ :=
  match checkin, checkout with
  | some ci, some co =>
      if co < ci then 0 else ((co : ℚ) - (ci : ℚ)) / 3600
  | _, _ => 0

/-- Round a rational to the nearest integer, halves to even
(the rounding mode of `np.round`). -/
def roundHalfEven (q : ℚ) : ℤ :=
  if q - (⌊q⌋ : ℚ) < 1/2 then ⌊q⌋
  else if (1 : ℚ)/2 < q - (⌊q⌋ : ℚ) then ⌊q⌋ + 1
  else if ⌊q⌋ % 2 = 0 then ⌊q⌋ else ⌊q⌋ + 1

/-- `np.round(q, 2)`: round half to even at two decimal places. -/
def round2 (q : ℚ) : ℚ :=
  (roundHalfEven (q * 100) : ℚ) / 100

/-- The scalar core of
`TimesheetEmployeeProcessor.calculate_salary_per_hour` (lines 177-191):
`np.where(total_work_hour == 0, 0, np.round(total_salary / total_work_hour, 2))`.
(`np.where` evaluates both arms but only the selected value reaches the
output column.) -/
def calculate_salary_per_hour (total_salary total_work_hour : ℚ) : ℚ :=
  if total_work_hour = 0 then 0 else round2 (total_salary / total_work_hour)

/-- Division that refuses a zero divisor, used to express that the guarded
division in `calculate_salary_per_hour` never divides by zero in the value
that reaches the output. -/
def divChecked (a b : ℚ) : Option ℚ :=
  if b = 0 then none else some (a / b)

/-- `calculate_salary_per_hour` with the division routed through
`divChecked`: returns `none` exactly when an unguarded zero division would
reach the output. -/
def calculate_salary_per_hour_checked (total_salary total_work_hour : ℚ) :
    Option ℚ :=
  if total_work_hour = 0 then some 0
  else (divChecked total_salary total_work_hour).map round2

/-- `Series.idxmin` restricted to a list: the first element whose image under
`o` is minimal (pandas `idxmin` returns the first index attaining the
minimum). -/
def argminFirst {α : Type} (o : α → ℚ) (rows : List α) : Option α :=
  rows.find? (fun r => rows.all (fun z => decide (o r ≤ o z)))

/-- `Series.idxmax` restricted to a list: the first element whose image under
`o` is maximal. -/
def argmaxFirst {α : Type} (o : α → ℚ) (rows : List α) : Option α :=
  rows.find? (fun r => rows.all (fun z => decide (o z ≤ o r)))

/-- `TimesheetEmployeeProcessor.remove_duplicate_data` (lines 32-51):
`groupby(partitioning_keys)[ordering_key].idxmin()` (or `idxmax()` when
`ascending_order` is false), then `.loc[idx]`.  For each distinct partition
key the surviving row is the first row of the group attaining the extreme
ordering value.  (pandas emits the groups sorted by key; we emit them in
`dedup` order, the properties proved below do not mention row order.)

`pickGroup` is the per-group selection: the surviving row of one partition
key's group. -/
def pickGroup {α κ : Type} [DecidableEq κ]
    (rows : List α) (k : α → κ) (o : α → ℚ) (ascending_order : Bool)
    (key : κ) : Option α :=
  (if ascending_order then argminFirst o else argmaxFirst o)
    (rows.filter (fun r => decide (k r = key)))

/-- The whole deduplication: one picked row per distinct partition key. -/
def remove_duplicate_data {α κ : Type} [DecidableEq κ]
    (rows : List α) (k : α → κ) (o : α → ℚ) (ascending_order : Bool) :
    List α :=
  ((rows.map k).dedup).filterMap (pickGroup rows k o ascending_order)

/-- `remove_duplicate_data` addressed by column names, as the script calls it.
`col r c` is row `r`'s value in column `c` (`none` when the frame has no such
column).  A missing partition or ordering column raises a pandas `KeyError`;
otherwise this is `remove_duplicate_data` keyed by the tuple of partition
column values.  (With a structure-typed row a column is present in no row or
in all rows, matching a DataFrame's uniform column set.) -/
def remove_duplicate_data_named {ρ : Type}
    (rows : List ρ) (col : ρ → String → Option ℚ)
    (partitioning_keys : List String) (ordering_key : String)
    (ascending_order : Bool) : Except String (List ρ) :=
  if rows.all (fun r =>
      partitioning_keys.all (fun c => (col r c).isSome) &&
      (col r ordering_key).isSome) then
    Except.ok (remove_duplicate_data rows
      (fun r => partitioning_keys.map (col r))
      (fun r => (col r ordering_key).getD 0) ascending_order)
  else
    Except.error "KeyError"

/-- An employee CSV row under the schema the specification declares
(§6: columns `employee_id, branch_id, salary, join_date, resign_date`). -/
structure EmployeeRecord where
  employee_id : ℕ
  branch_id : ℕ
  salary : ℚ
  join_date : Date
  resign_date : Option Date
deriving DecidableEq, Repr

/-- Numeric column accessor for the declared schema.  Only numeric columns
are addressable (the script never uses a date column as a deduplication
key). -/
def EmployeeRecord.col (r : EmployeeRecord) : String → Option ℚ
  | "employee_id" => some r.employee_id
  | "branch_id" => some r.branch_id
  | "salary" => some r.salary
  | _ => none

/-- An employee CSV row under the schema the script actually addresses:
the id column is spelled `employe_id` (see lines 200 and 211, both the
deduplication call and the join use `employe_id`). -/
structure EmployeRecord where
  employe_id : ℕ
  branch_id : ℕ
  salary : ℚ
  join_date : Date
  resign_date : Option Date
deriving DecidableEq, Repr

/-- Numeric column accessor for the script's expected schema. -/
def EmployeRecord.col (r : EmployeRecord) : String → Option ℚ
  | "employe_id" => some r.employe_id
  | "branch_id" => some r.branch_id
  | "salary" => some r.salary
  | _ => none

/-- The employee-cleaning stage (lines 197-201):
`remove_duplicate_data(partitioning_keys=['employe_id', 'branch_id'],
ordering_key='salary', ascending_order=False)`, generic in the row type so it
can be run against either schema. -/
def employee_clean {ρ : Type} (rows : List ρ) (col : ρ → String → Option ℚ) :
    Except String (List ρ) :=
  remove_duplicate_data_named rows col ["employe_id", "branch_id"] "salary"
    false

/-- The (employe_id, branch_id) partition key of the employee-cleaning
stage. -/
def pairKey (r : EmployeRecord) : ℕ × ℕ :=
  (r.employe_id, r.branch_id)

/-- A timesheet row joined with its employee record, after
`select_fields(['timesheet_id', 'employee_id', 'branch_id', 'salary',
'join_date', 'resign_date', 'date', 'checkin', 'checkout'])` (line 216). -/
structure EnrichedRow where
  timesheet_id : ℕ
  employee_id : ℕ
  branch_id : ℕ
  salary : ℚ
  join_date : Date
  resign_date : Option Date
  date : Date
  checkin : Option ℕ
  checkout : Option ℕ
deriving DecidableEq, Repr

/-- `TimesheetEmployeeProcessor.filter_valid_data` (lines 73-90): keeps the
rows satisfying `(date <= resign_date) | resign_date.isna()`.  When
`resign_date` is NaT both the comparison and the conversion behave as in
pandas: the `<=` is `False` and `isna` is `True`, so the row is kept. -/
def filter_valid_data (rows : List EnrichedRow) : List EnrichedRow :=
  rows.filter (fun r =>
    match r.resign_date with
    | some rd => Date.leb r.date rd
    | none => true)

/-- The (year, month, branch_id) grouping key, year and month extracted from
the entry date as `dt.year` / `dt.month` (lines 131-133, 150-153). -/
def ymKey (r : EnrichedRow) : ℕ × ℕ × ℕ :=
  (r.date.year, r.date.month, r.branch_id)

/-- The (year, month, branch_id, employee_id) grouping key of the salary
aggregation's first stage (line 157). -/
def ymbeKey (r : EnrichedRow) : ℕ × ℕ × ℕ × ℕ :=
  (r.date.year, r.date.month, r.branch_id, r.employee_id)

/-- An enriched row together with its computed `work_hour` column. -/
structure WorkedRow where
  entry : EnrichedRow
  work_hour : ℚ
deriving DecidableEq, Repr

/-- The column-adding part of
`TimesheetEmployeeProcessor.calculate_work_hour` (lines 104-122). -/
def calculate_work_hour_stage (rows : List EnrichedRow) : List WorkedRow :=
  rows.map (fun r => ⟨r, calculate_work_hour r.checkin r.checkout⟩)

/-- Grouping key of a worked row. -/
def wKey (w : WorkedRow) : ℕ × ℕ × ℕ :=
  ymKey w.entry

/-- One row of the hours aggregate. -/
structure HourRow where
  year : ℕ
  month : ℕ
  branch_id : ℕ
  total_work_hour : ℚ
deriving DecidableEq, Repr

/-- Key of an hours-aggregate row. -/
def hKey (h : HourRow) : ℕ × ℕ × ℕ :=
  (h.year, h.month, h.branch_id)

/-- `TimesheetEmployeeProcessor.sum_work_hour` (lines 124-142):
`groupby(['year', 'month', 'branch_id'])['work_hour'].sum()`.  One output
row per distinct key of the input, carrying the sum of the group's
`work_hour` values. -/
def sum_work_hour (rows : List WorkedRow) : List HourRow :=
  ((rows.map wKey).dedup).map (fun key =>
    ⟨key.1, key.2.1, key.2.2,
      ((rows.filter (fun r => decide (wKey r = key))).map
        (fun r => r.work_hour)).sum⟩)

/-- Maximum of a list of rationals (`Series.max()` over a group; the group of
a key produced by `groupby` is never empty, so the `[]` arm is never hit by
the aggregation). -/
def listMax : List ℚ → ℚ
  | [] => 0
  | x :: xs => xs.foldl max x

/-- One row of the salary aggregation's first stage. -/
structure EmpSalRow where
  year : ℕ
  month : ℕ
  branch_id : ℕ
  employee_id : ℕ
  salary_per_month : ℚ
deriving DecidableEq, Repr

/-- Key of a first-stage salary row at branch granularity. -/
def eKey (r : EmpSalRow) : ℕ × ℕ × ℕ :=
  (r.year, r.month, r.branch_id)

/-- `TimesheetEmployeeProcessor.get_salary_per_employee` (lines 144-162):
`groupby(['year', 'month', 'branch_id', 'employee_id'])['salary'].max()`,
renamed to `salary_per_month`. -/
def get_salary_per_employee (rows : List EnrichedRow) : List EmpSalRow :=
  ((rows.map ymbeKey).dedup).map (fun key =>
    ⟨key.1, key.2.1, key.2.2.1, key.2.2.2,
      listMax ((rows.filter (fun r => decide (ymbeKey r = key))).map
        (fun r => r.salary))⟩)

/-- One row of the branch-level salary aggregate. -/
structure SalaryRow where
  year : ℕ
  month : ℕ
  branch_id : ℕ
  total_salary : ℚ
deriving DecidableEq, Repr

/-- Key of a salary-aggregate row. -/
def sKey (s : SalaryRow) : ℕ × ℕ × ℕ :=
  (s.year, s.month, s.branch_id)

/-- `TimesheetEmployeeProcessor.sum_salary_per_branch` (lines 164-175):
`groupby(['year', 'month', 'branch_id'])['salary_per_month'].sum()`, renamed
to `total_salary`. -/
def sum_salary_per_branch (rows : List EmpSalRow) : List SalaryRow :=
  ((rows.map eKey).dedup).map (fun key =>
    ⟨key.1, key.2.1, key.2.2,
      ((rows.filter (fun r => decide (eKey r = key))).map
        (fun r => r.salary_per_month)).sum⟩)

/-- One row of the joined hours/salary aggregate. -/
structure CombinedRow where
  year : ℕ
  month : ℕ
  branch_id : ℕ
  total_work_hour : ℚ
  total_salary : ℚ
deriving DecidableEq, Repr

/-- Key of a joined aggregate row. -/
def cKey (c : CombinedRow) : ℕ × ℕ × ℕ :=
  (c.year, c.month, c.branch_id)

/-- `pd.merge(work_hour_data, salary_data, on=['year', 'month',
'branch_id'])` (line 232): the inner join of the two aggregates. -/
def merge_hour_salary (hs : List HourRow) (ss : List SalaryRow) :
    List CombinedRow :=
  hs.flatMap (fun h =>
    (ss.filter (fun s => decide (sKey s = hKey h))).map (fun s =>
      ⟨h.year, h.month, h.branch_id, h.total_work_hour, s.total_salary⟩))

/-- A joined aggregate row with the derived `salary_per_hour` column. -/
structure RatedRow where
  year : ℕ
  month : ℕ
  branch_id : ℕ
  total_work_hour : ℚ
  total_salary : ℚ
  salary_per_hour : ℚ
deriving DecidableEq, Repr

/-- Key of a rated row. -/
def rKey (r : RatedRow) : ℕ × ℕ × ℕ :=
  (r.year, r.month, r.branch_id)

/-- The column-adding part of
`TimesheetEmployeeProcessor.calculate_salary_per_hour` (lines 177-191). -/
def calculate_salary_per_hour_stage (rows : List CombinedRow) :
    List RatedRow :=
  rows.map (fun c =>
    ⟨c.year, c.month, c.branch_id, c.total_work_hour, c.total_salary,
      calculate_salary_per_hour c.total_salary c.total_work_hour⟩)

/-- One row of the final output
(`select_fields(['year', 'month', 'branch_id', 'salary_per_hour'])`,
line 237). -/
structure FinalRow where
  year : ℕ
  month : ℕ
  branch_id : ℕ
  salary_per_hour : ℚ
deriving DecidableEq, Repr

/-- Key of a final output row. -/
def fKey (r : FinalRow) : ℕ × ℕ × ℕ :=
  (r.year, r.month, r.branch_id)

/-- The final field selection (line 237). -/
def select_final (rows : List RatedRow) : List FinalRow :=
  rows.map (fun r => ⟨r.year, r.month, r.branch_id, r.salary_per_hour⟩)

/-- Lines 220-223: `calculate_work_hour` then `sum_work_hour` applied to the
enriched entries. -/
def pipeline_hours (rows : List EnrichedRow) : List HourRow :=
  sum_work_hour (calculate_work_hour_stage rows)

/-- Lines 226-229: `get_salary_per_employee` then `sum_salary_per_branch`
applied to the enriched entries. -/
def pipeline_salary (rows : List EnrichedRow) : List SalaryRow :=
  sum_salary_per_branch (get_salary_per_employee rows)

/-- Lines 232-236: the joined aggregates with the derived rate column. -/
def pipeline_rated (rows : List EnrichedRow) : List RatedRow :=
  calculate_salary_per_hour_stage
    (merge_hour_salary (pipeline_hours rows) (pipeline_salary rows))

/-- Lines 232-238: the final output rows. -/
def pipeline_final (rows : List EnrichedRow) : List FinalRow :=
  select_final (pipeline_rated rows)

/-- Lookup of an aggregate total by key (the aggregates carry pairwise
distinct keys, so `find?` is a map lookup). -/
def hourTotal (agg : List HourRow) (key : ℕ × ℕ × ℕ) : Option ℚ :=
  (agg.find? (fun h => decide (hKey h = key))).map (fun h => h.total_work_hour)

/-! ### Arithmetic helper lemmas -/

lemma roundHalfEven_intCast (n : ℤ) : roundHalfEven (n : ℚ) = n := by
  unfold roundHalfEven
  rw [Int.floor_intCast]
  norm_num

lemma roundHalfEven_nonneg {q : ℚ} (hq : 0 ≤ q) : 0 ≤ roundHalfEven q := by
  have hf : (0 : ℤ) ≤ ⌊q⌋ := Int.floor_nonneg.mpr hq
  unfold roundHalfEven
  split_ifs <;> omega

lemma round2_nonneg {q : ℚ} (hq : 0 ≤ q) : 0 ≤ round2 q := by
  have h : (0 : ℤ) ≤ roundHalfEven (q * 100) :=
    roundHalfEven_nonneg (by positivity)
  unfold round2
  have h2 : (0 : ℚ) ≤ (roundHalfEven (q * 100) : ℚ) := by exact_mod_cast h
  positivity

lemma round2_eq_of_mul_hundred {q : ℚ} {n : ℤ} (h : q * 100 = (n : ℚ)) :
    round2 q = (n : ℚ) / 100 := by
  unfold round2
  rw [h, roundHalfEven_intCast]

lemma calculate_work_hour_nonneg (ci co : Option ℕ) :
    0 ≤ calculate_work_hour ci co := by
  unfold calculate_work_hour
  match ci, co with
  | some a, some b =>
    dsimp only
    split_ifs with h
    · exact le_refl 0
    · have hab : (a : ℚ) ≤ (b : ℚ) := by exact_mod_cast not_lt.mp h
      have : (0 : ℚ) ≤ (b : ℚ) - (a : ℚ) := by linarith
      positivity
  | some a, none => exact le_refl 0
  | none, some b => exact le_refl 0
  | none, none => exact le_refl 0

/-! ### Deduplicator helper lemmas -/

lemma exists_min_image {α : Type} (o : α → ℚ) (l : List α) (hne : l ≠ []) :
    ∃ r ∈ l, ∀ z ∈ l, o r ≤ o z := by
  induction l with
  | nil => exact absurd rfl hne
  | cons x xs ih =>
    rcases eq_or_ne xs [] with h | h
    · subst h
      refine ⟨x, List.mem_singleton_self x, ?_⟩
      intro z hz
      rcases List.mem_singleton.mp hz with rfl
      exact le_refl _
    · obtain ⟨r, hr, hmin⟩ := ih h
      rcases le_total (o x) (o r) with hle | hle
      · refine ⟨x, List.mem_cons_self x xs, ?_⟩
        intro z hz
        rcases List.mem_cons.mp hz with rfl | hz
        · exact le_refl _
        · exact le_trans hle (hmin z hz)
      · refine ⟨r, List.mem_cons_of_mem _ hr, ?_⟩
        intro z hz
        rcases List.mem_cons.mp hz with rfl | hz
        · exact hle
        · exact hmin z hz

lemma argminFirst_isSome {α : Type} (o : α → ℚ) (l : List α) (hne : l ≠ []) :
    ∃ r, argminFirst o l = some r := by
  obtain ⟨r, hr, hmin⟩ := exists_min_image o l hne
  have hex : ∃ x, x ∈ l ∧ (l.all fun z => decide (o x ≤ o z)) = true := by
    refine ⟨r, hr, ?_⟩
    simp only [List.all_eq_true, decide_eq_true_eq]
    exact hmin
  exact Option.isSome_iff_exists.mp (List.find?_isSome.mpr hex)

lemma argminFirst_eq_some {α : Type} {o : α → ℚ} {l : List α} {r : α}
    (h : argminFirst o l = some r) :
    r ∈ l ∧ (∀ z ∈ l, o r ≤ o z) ∧
      ∃ pre post, l = pre ++ r :: post ∧ ∀ z ∈ pre, o r < o z := by
  have hmem := List.mem_of_find?_eq_some h
  have hp := List.find?_some h
  simp only [List.all_eq_true, decide_eq_true_eq] at hp
  refine ⟨hmem, hp, ?_⟩
  unfold argminFirst at h
  rw [List.find?_eq_some] at h
  obtain ⟨-, pre, post, hsplit, hfail⟩ := h
  refine ⟨pre, post, hsplit, ?_⟩
  intro z hz
  have hzf := hfail z hz
  simp only [Bool.not_eq_eq_eq_not, Bool.not_true, List.all_eq_false,
    decide_eq_true_eq, not_le] at hzf
  obtain ⟨w, hw, hwz⟩ := hzf
  exact lt_of_le_of_lt (hp w hw) hwz

lemma argmaxFirst_eq_neg {α : Type} (o : α → ℚ) (l : List α) :
    argmaxFirst o l = argminFirst (fun x => -o x) l := by
  unfold argmaxFirst argminFirst
  congr 1
  funext r
  congr 1
  funext z
  refine decide_eq_decide.mpr ?_
  show o z ≤ o r ↔ -o r ≤ -o z
  constructor <;> intro h <;> linarith

lemma argmaxFirst_isSome {α : Type} (o : α → ℚ) (l : List α) (hne : l ≠ []) :
    ∃ r, argmaxFirst o l = some r := by
  rw [argmaxFirst_eq_neg]
  exact argminFirst_isSome _ l hne

lemma argmaxFirst_eq_some {α : Type} {o : α → ℚ} {l : List α} {r : α}
    (h : argmaxFirst o l = some r) :
    r ∈ l ∧ (∀ z ∈ l, o z ≤ o r) ∧
      ∃ pre post, l = pre ++ r :: post ∧ ∀ z ∈ pre, o z < o r := by
  rw [argmaxFirst_eq_neg] at h
  obtain ⟨hm, hmin, pre, post, hs, hlt⟩ := argminFirst_eq_some h
  refine ⟨hm, ?_, pre, post, hs, ?_⟩
  · intro z hz
    have h2 : -o r ≤ -o z := hmin z hz
    linarith
  · intro z hz
    have h2 : -o r < -o z := hlt z hz
    linarith

lemma pickGroup_eq_some {α κ : Type} [DecidableEq κ]
    (rows : List α) (k : α → κ) (o : α → ℚ) (asc : Bool) {key : κ}
    (hkey : key ∈ rows.map k) :
    ∃ r, pickGroup rows k o asc key = some r ∧ k r = key := by
  obtain ⟨x, hx, rfl⟩ := List.mem_map.mp hkey
  have hne : rows.filter (fun r => decide (k r = k x)) ≠ [] := by
    intro hnil
    have hxin : x ∈ rows.filter (fun r => decide (k r = k x)) :=
      List.mem_filter.mpr ⟨hx, by simp⟩
    rw [hnil] at hxin
    exact absurd hxin (List.not_mem_nil x)
  unfold pickGroup
  cases asc with
  | false =>
    obtain ⟨r, hr⟩ := argmaxFirst_isSome o _ hne
    have hrf := (argmaxFirst_eq_some hr).1
    have hkr := (List.mem_filter.mp hrf).2
    simp only [decide_eq_true_eq] at hkr
    exact ⟨r, by simpa using hr, hkr⟩
  | true =>
    obtain ⟨r, hr⟩ := argminFirst_isSome o _ hne
    have hrf := (argminFirst_eq_some hr).1
    have hkr := (List.mem_filter.mp hrf).2
    simp only [decide_eq_true_eq] at hkr
    exact ⟨r, by simpa using hr, hkr⟩

lemma filterMap_keys {α κ : Type} (k : α → κ) (pick : κ → Option α)
    (keys : List κ)
    (hpick : ∀ key ∈ keys, ∃ r, pick key = some r ∧ k r = key) :
    ((keys.filterMap pick).map k) = keys := by
  induction keys with
  | nil => simp
  | cons key keys ih =>
    obtain ⟨r, hr, hkr⟩ := hpick key (List.mem_cons_self key keys)
    rw [List.filterMap_cons, hr, List.map_cons, hkr,
      ih (fun key2 hk2 => hpick key2 (List.mem_cons_of_mem _ hk2))]

lemma remove_duplicate_keys {α κ : Type} [DecidableEq κ]
    (rows : List α) (k : α → κ) (o : α → ℚ) (asc : Bool) :
    (remove_duplicate_data rows k o asc).map k = (rows.map k).dedup := by
  unfold remove_duplicate_data
  exact filterMap_keys k _ _ (fun key hkey =>
    pickGroup_eq_some rows k o asc (List.mem_dedup.mp hkey))

lemma remove_duplicate_mem {α κ : Type} [DecidableEq κ]
    {rows : List α} {k : α → κ} {o : α → ℚ} {asc : Bool} {r : α}
    (h : r ∈ remove_duplicate_data rows k o asc) :
    r ∈ rows ∧
    (∀ z ∈ rows, k z = k r →
      (if asc then o r ≤ o z else o z ≤ o r)) ∧
    ∃ pre post,
      rows.filter (fun x => decide (k x = k r)) = pre ++ r :: post ∧
      ∀ z ∈ pre, (if asc then o r < o z else o z < o r) := by
  unfold remove_duplicate_data at h
  obtain ⟨key, hkey, hpick⟩ := List.mem_filterMap.mp h
  obtain ⟨r2, hr2, hkr2⟩ := pickGroup_eq_some rows k o asc
    (List.mem_dedup.mp hkey)
  have hrr : r2 = r := by rw [hpick] at hr2; exact (Option.some.injEq _ _).mp hr2.symm
  subst hrr
  subst hkr2
  unfold pickGroup at hr2
  cases asc with
  | false =>
    simp only [if_neg (by simp : ¬ (false = true))] at hr2
    obtain ⟨hmem, hmax, pre, post, hs, hfirst⟩ := argmaxFirst_eq_some hr2
    have hrows := (List.mem_filter.mp hmem).1
    refine ⟨hrows, ?_, pre, post, hs, ?_⟩
    · intro z hz hkz
      simp only [if_neg (by simp : ¬ (false = true))]
      exact hmax z (List.mem_filter.mpr ⟨hz, by simp [hkz]⟩)
    · intro z hz
      simp only [if_neg (by simp : ¬ (false = true))]
      exact hfirst z hz
  | true =>
    simp only [if_pos rfl] at hr2
    obtain ⟨hmem, hmin, pre, post, hs, hfirst⟩ := argminFirst_eq_some hr2
    have hrows := (List.mem_filter.mp hmem).1
    refine ⟨hrows, ?_, pre, post, hs, ?_⟩
    · intro z hz hkz
      simp only [if_pos rfl]
      exact hmin z (List.mem_filter.mpr ⟨hz, by simp [hkz]⟩)
    · intro z hz
      simp only [if_pos rfl]
      exact hfirst z hz

/-! ### Claims -/

/-- The row refuting claim C1 as frozen: dated before its `join_date`, never
resigned.  The script's filter keeps it; the claim says it must be
excluded. -/
def c1row : EnrichedRow :=
  ⟨1, 1, 1, 1000, ⟨2024, 1, 1⟩, none, ⟨2023, 6, 1⟩, some 32400, some 61200⟩

/-- Claim C1, counterexample to the statement as frozen: `filter_valid_data`
keeps a row whose entry date lies strictly before `join_date` (with
`resign_date` absent), so the filter's output is not characterised by
`join_date ≤ date ∧ (date ≤ resign_date ∨ resign_date = none)`: the
`join_date ≤ date` conjunct fails on a retained row. -/
theorem claim_C1_cex :
    c1row ∈ filter_valid_data [c1row] ∧
      Date.leb c1row.join_date c1row.date = false := by
  constructor
  · exact List.mem_filter.mpr ⟨List.mem_singleton_self _, rfl⟩
  · rfl

/-- Claim C1 (amended): a joined row passes `filter_valid_data` if and only
if it is an input row whose entry date is at most `resign_date`, or whose
`resign_date` is absent.  `join_date` is not consulted: entries dated before
the employee joined are retained. -/
theorem claim_C1 (rows : List EnrichedRow) (r : EnrichedRow) :
    r ∈ filter_valid_data rows ↔
      r ∈ rows ∧ (r.resign_date = none ∨
        ∃ rd, r.resign_date = some rd ∧ Date.leb r.date rd = true) := by
  unfold filter_valid_data
  rw [List.mem_filter]
  constructor
  · rintro ⟨hr, hp⟩
    refine ⟨hr, ?_⟩
    cases hrd : r.resign_date with
    | none => exact Or.inl rfl
    | some rd =>
      rw [hrd] at hp
      exact Or.inr ⟨rd, rfl, hp⟩
  · rintro ⟨hr, hc⟩
    refine ⟨hr, ?_⟩
    rcases hc with h | ⟨rd, hrd, hle⟩
    · rw [h]
    · rw [hrd]
      exact hle

/-- Claim C1, witness: the amended characterisation applied at a concrete
row (retained because its `resign_date` is absent). -/
theorem claim_C1_witness :
    c1row ∈ filter_valid_data [c1row] :=
  (claim_C1 [c1row] c1row).mpr ⟨List.mem_singleton_self _, Or.inl rfl⟩

/-- Claim C2: for every timesheet entry the Work-Hour Calculator yields 0
when checkin > checkout, otherwise `(checkout - checkin)` in fractional
hours, with a null on either side coerced to 0; 09:00→17:00 gives 8.0,
17:00→09:00 gives 0, and equal times give 0. -/
theorem claim_C2 :
    (∀ ci co : ℕ, co < ci → calculate_work_hour (some ci) (some co) = 0) ∧
    (∀ ci co : ℕ, ci ≤ co →
      calculate_work_hour (some ci) (some co) =
        ((co : ℚ) - (ci : ℚ)) / 3600) ∧
    (∀ ci, calculate_work_hour (some ci) none = 0) ∧
    (∀ co, calculate_work_hour none (some co) = 0) ∧
    calculate_work_hour none none = 0 ∧
    calculate_work_hour (some 32400) (some 61200) = 8 ∧
    calculate_work_hour (some 61200) (some 32400) = 0 ∧
    (∀ t, calculate_work_hour (some t) (some t) = 0) := by
  refine ⟨?_, ?_, fun ci => rfl, fun co => rfl, rfl, ?_, ?_, ?_⟩
  · intro ci co h
    simp only [calculate_work_hour]
    rw [if_pos h]
  · intro ci co h
    simp only [calculate_work_hour]
    rw [if_neg (not_lt.mpr h)]
  · simp only [calculate_work_hour]
    norm_num
  · simp only [calculate_work_hour]
    norm_num
  · intro t
    simp only [calculate_work_hour]
    rw [if_neg (lt_irrefl t)]
    simp

/-- Claim C2, witness: the two guarded clauses at concrete inputs. -/
theorem claim_C2_witness :
    calculate_work_hour (some 10) (some 5) = 0 ∧
    calculate_work_hour (some 5) (some 10) = ((10 : ℚ) - (5 : ℚ)) / 3600 :=
  ⟨claim_C2.1 10 5 (by norm_num), claim_C2.2.1 5 10 (by norm_num)⟩

/-- Claim C3: the Rate Combiner's scalar computes 0 when `total_work_hour`
is 0 (whatever `total_salary` is), and otherwise
`round(total_salary / total_work_hour, 2)`; 125 over 10 hours gives 12.5. -/
theorem claim_C3 :
    (∀ s : ℚ, calculate_salary_per_hour s 0 = 0) ∧
    (∀ s h : ℚ, h ≠ 0 →
      calculate_salary_per_hour s h = round2 (s / h)) ∧
    calculate_salary_per_hour 125 10 = 12.5 := by
  refine ⟨?_, ?_, ?_⟩
  · intro s
    unfold calculate_salary_per_hour
    rw [if_pos rfl]
  · intro s h hh
    unfold calculate_salary_per_hour
    rw [if_neg hh]
  · unfold calculate_salary_per_hour
    rw [if_neg (by norm_num : (10 : ℚ) ≠ 0),
      round2_eq_of_mul_hundred (n := 1250) (by norm_num)]
    norm_num

/-- Claim C3, witness: the nonzero-divisor clause at a concrete input. -/
theorem claim_C3_witness :
    calculate_salary_per_hour 7 2 = round2 ((7 : ℚ) / 2) :=
  claim_C3.2.1 7 2 (by norm_num)

/-- Claim C4: for every input collection, partition-key projection, ordering
field and direction, the Record Deduplicator keeps exactly one record per
distinct partition key of the input (its key list is the deduplicated input
key list); empty input yields empty output; and every surviving record is an
input record that attains the minimum (ascending) resp. maximum (descending)
ordering value of its group, the first such record of the group on ties. -/
theorem claim_C4 {α κ : Type} [DecidableEq κ]
    (rows : List α) (k : α → κ) (o : α → ℚ) (asc : Bool) :
    (remove_duplicate_data rows k o asc).map k = (rows.map k).dedup ∧
    (rows = [] → remove_duplicate_data rows k o asc = []) ∧
    (∀ r ∈ remove_duplicate_data rows k o asc,
      r ∈ rows ∧
      (∀ z ∈ rows, k z = k r →
        (if asc then o r ≤ o z else o z ≤ o r)) ∧
      ∃ pre post,
        rows.filter (fun x => decide (k x = k r)) = pre ++ r :: post ∧
        ∀ z ∈ pre, (if asc then o r < o z else o z < o r)) := by
  refine ⟨remove_duplicate_keys rows k o asc, ?_,
    fun r hr => remove_duplicate_mem hr⟩
  rintro rfl
  rfl

/-- Claim C4, witness: the empty-input clause, and membership of a
surviving record among the input records, at concrete inputs. -/
theorem claim_C4_witness :
    remove_duplicate_data ([] : List (ℕ × ℚ)) Prod.fst Prod.snd true = [] ∧
    (1, (3 : ℚ)) ∈ [((1 : ℕ), (5 : ℚ)), (1, 3), (2, 7)] :=
  ⟨(claim_C4 [] Prod.fst Prod.snd true).2.1 rfl,
    ((claim_C4 [((1 : ℕ), (5 : ℚ)), (1, 3), (2, 7)] Prod.fst Prod.snd
      true).2.2 (1, 3) (by decide)).1⟩

lemma EmployeRecord.col_employe (r : EmployeRecord) :
    r.col "employe_id" = some (r.employe_id : ℚ) := rfl

lemma EmployeRecord.col_salary (r : EmployeRecord) :
    r.col "salary" = some r.salary := rfl

/-- The key projection the employee-cleaning stage uses, as a list of column
values. -/
def listKey (r : EmployeRecord) : List (Option ℚ) :=
  ["employe_id", "branch_id"].map (EmployeRecord.col r)

/-- Injection of a (employe_id, branch_id) pair into the list-of-columns key
space. -/
def injPair (p : ℕ × ℕ) : List (Option ℚ) :=
  [some (p.1 : ℚ), some (p.2 : ℚ)]

lemma injPair_injective : Function.Injective injPair := by
  intro p q h
  unfold injPair at h
  simp only [List.cons.injEq, Option.some.injEq, Nat.cast_inj, and_true] at h
  exact Prod.ext h.1 h.2

lemma listKey_eq (r : EmployeRecord) : listKey r = injPair (pairKey r) := rfl

/-- On a file with the script's expected schema, the cleaning stage reduces
to `remove_duplicate_data` keyed by (employe_id, branch_id) and ordered by
salary, descending. -/
lemma employee_clean_eq (rows : List EmployeRecord) :
    employee_clean rows EmployeRecord.col =
      Except.ok (remove_duplicate_data rows listKey
        (fun r => r.salary) false) := by
  have hguard : rows.all (fun r =>
      (["employe_id", "branch_id"].all fun c =>
        (EmployeRecord.col r c).isSome) &&
      (EmployeRecord.col r "salary").isSome) = true :=
    List.all_eq_true.mpr (fun r _ => rfl)
  unfold employee_clean remove_duplicate_data_named
  rw [if_pos hguard]
  rfl

/-- The declared-schema employee row used to refute claim C5 as frozen. -/
def c5row : EmployeeRecord :=
  ⟨1, 1, 100, ⟨2020, 1, 1⟩, none⟩

/-- Claim C5, counterexample to the statement as frozen: on a (nonempty)
employee file conforming to the declared schema — its id column is named
`employee_id` — the cleaning stage does not succeed: the script partitions
on the column name `employe_id` (line 200), which such a file does not have,
and pandas raises a `KeyError`. -/
theorem claim_C5_cex :
    employee_clean [c5row] EmployeeRecord.col = Except.error "KeyError" :=
  rfl

/-- Claim C5 (amended): for every employee input file conforming to the
schema the code expects — columns `employe_id, branch_id, salary, join_date,
resign_date`, the id column spelled `employe_id` as the script addresses
it — the cleaning stage succeeds, and keeps, for each (employe_id,
branch_id) pair present in the input, exactly one row: an input row of that
pair whose salary is maximal among the pair's duplicates. -/
theorem claim_C5 (rows : List EmployeRecord) :
    ∃ out, employee_clean rows EmployeRecord.col = Except.ok out ∧
      (out.map pairKey).Nodup ∧
      (∀ p : ℕ × ℕ, p ∈ out.map pairKey ↔ p ∈ rows.map pairKey) ∧
      (∀ r ∈ out, r ∈ rows ∧
        ∀ z ∈ rows, pairKey z = pairKey r → z.salary ≤ r.salary) := by
  refine ⟨remove_duplicate_data rows listKey (fun r => r.salary) false,
    employee_clean_eq rows, ?_, ?_, ?_⟩
  · have hnd : ((remove_duplicate_data rows listKey
        (fun r => r.salary) false).map listKey).Nodup := by
      rw [remove_duplicate_keys]
      exact List.nodup_dedup _
    have hre : (remove_duplicate_data rows listKey
          (fun r => r.salary) false).map listKey =
        ((remove_duplicate_data rows listKey
          (fun r => r.salary) false).map pairKey).map injPair := by
      rw [List.map_map]
      rfl
    rw [hre] at hnd
    exact hnd.of_map injPair
  · intro p
    constructor
    · intro hp
      obtain ⟨r, hr, hpr⟩ := List.mem_map.mp hp
      have hin : injPair p ∈ (remove_duplicate_data rows listKey
          (fun r => r.salary) false).map listKey :=
        List.mem_map.mpr ⟨r, hr, by rw [listKey_eq, hpr]⟩
      rw [remove_duplicate_keys] at hin
      obtain ⟨z, hz, hzk⟩ := List.mem_map.mp (List.mem_dedup.mp hin)
      refine List.mem_map.mpr ⟨z, hz, ?_⟩
      exact injPair_injective ((listKey_eq z) ▸ hzk)
    · intro hp
      obtain ⟨z, hz, hzp⟩ := List.mem_map.mp hp
      have hin : injPair p ∈ rows.map listKey :=
        List.mem_map.mpr ⟨z, hz, by rw [listKey_eq, hzp]⟩
      have hin2 : injPair p ∈ (remove_duplicate_data rows listKey
          (fun r => r.salary) false).map listKey := by
        rw [remove_duplicate_keys]
        exact List.mem_dedup.mpr hin
      obtain ⟨r, hr, hrk⟩ := List.mem_map.mp hin2
      refine List.mem_map.mpr ⟨r, hr, ?_⟩
      exact injPair_injective ((listKey_eq r) ▸ hrk)
  · intro r hr
    obtain ⟨hrows, hbest, -⟩ := remove_duplicate_mem hr
    refine ⟨hrows, ?_⟩
    intro z hz hpz
    have hk : listKey z = listKey r := by
      rw [listKey_eq, listKey_eq, hpz]
    have := hbest z hz hk
    simpa using this

/-- Claim C5, witness: the cleaning stage succeeds on a concrete two-row
file with the script's expected schema. -/
theorem claim_C5_witness :
    ∃ out, employee_clean
        [(⟨1, 1, 100, ⟨2020, 1, 1⟩, none⟩ : EmployeRecord),
          ⟨1, 1, 200, ⟨2020, 1, 1⟩, none⟩] EmployeRecord.col =
      Except.ok out := by
  obtain ⟨out, h1, -, -, -⟩ := claim_C5
    [⟨1, 1, 100, ⟨2020, 1, 1⟩, none⟩, ⟨1, 1, 200, ⟨2020, 1, 1⟩, none⟩]
  exact ⟨out, h1⟩

lemma merge_mem {hs : List HourRow} {ss : List SalaryRow} {c : CombinedRow} :
    c ∈ merge_hour_salary hs ss ↔
      ∃ h ∈ hs, ∃ s ∈ ss, sKey s = hKey h ∧
        c = ⟨h.year, h.month, h.branch_id, h.total_work_hour,
          s.total_salary⟩ := by
  unfold merge_hour_salary
  simp only [List.mem_flatMap, List.mem_map, List.mem_filter,
    decide_eq_true_eq]
  constructor
  · rintro ⟨h, hh, s, ⟨hsmem, hkey⟩, rfl⟩
    exact ⟨h, hh, s, hsmem, hkey, rfl⟩
  · rintro ⟨h, hh, s, hsmem, hkey, rfl⟩
    exact ⟨h, hh, s, ⟨hsmem, hkey⟩, rfl⟩

/-- Claim C6: the inner join emits a row for a (year, month, branch) key if
and only if the key occurs in both the hours aggregate and the salary
aggregate; one-sided keys produce no output row at all (rather than a row
with zero or null). -/
theorem claim_C6 (hs : List HourRow) (ss : List SalaryRow)
    (key : ℕ × ℕ × ℕ) :
    (∃ c ∈ merge_hour_salary hs ss, cKey c = key) ↔
      (∃ h ∈ hs, hKey h = key) ∧ (∃ s ∈ ss, sKey s = key) := by
  constructor
  · rintro ⟨c, hc, rfl⟩
    obtain ⟨h, hh, s, hsmem, hkey, rfl⟩ := merge_mem.mp hc
    exact ⟨⟨h, hh, rfl⟩, ⟨s, hsmem, hkey⟩⟩
  · rintro ⟨⟨h, hh, rfl⟩, ⟨s, hsmem, hkey⟩⟩
    exact ⟨⟨h.year, h.month, h.branch_id, h.total_work_hour, s.total_salary⟩,
      merge_mem.mpr ⟨h, hh, s, hsmem, hkey, rfl⟩, rfl⟩

/-- Claim C10: the rate computation never produces an undefined value: with
the division routed through a checked divider that refuses zero divisors,
the computation still always returns a value, and it is the value
`calculate_salary_per_hour` produces — the division's result only reaches
the output when `total_work_hour` is non-zero. -/
theorem claim_C10 :
    ∀ s h : ℚ, calculate_salary_per_hour_checked s h =
      some (calculate_salary_per_hour s h) := by
  intro s h
  unfold calculate_salary_per_hour_checked calculate_salary_per_hour
    divChecked
  by_cases hh : h = 0
  · rw [if_pos hh, if_pos hh]
  · rw [if_neg hh, if_neg hh, if_neg hh]
    rfl

lemma find?_key_self (l : List (ℕ × ℕ × ℕ)) (key : ℕ × ℕ × ℕ) :
    l.find? (fun k => decide (k = key)) =
      if key ∈ l then some key else none := by
  induction l with
  | nil => simp
  | cons x xs ih =>
    by_cases hx : x = key
    · subst hx
      simp [List.find?_cons, List.mem_cons]
    · simp [List.find?_cons, hx, ih, List.mem_cons,
        (show ¬ key = x from fun h => hx h.symm)]

lemma find?_hour_key (keys : List (ℕ × ℕ × ℕ)) (T : ℕ × ℕ × ℕ → ℚ)
    (key : ℕ × ℕ × ℕ) :
    ((keys.map (fun k => (⟨k.1, k.2.1, k.2.2, T k⟩ : HourRow))).find?
        (fun h => decide (hKey h = key))) =
      (keys.find? (fun k => decide (k = key))).map
        (fun k => (⟨k.1, k.2.1, k.2.2, T k⟩ : HourRow)) := by
  rw [List.find?_map]
  rfl

lemma hourTotal_sum_work_hour (rows : List WorkedRow) (key : ℕ × ℕ × ℕ) :
    hourTotal (sum_work_hour rows) key =
      if key ∈ rows.map wKey then
        some (((rows.filter (fun r => decide (wKey r = key))).map
          (fun r => r.work_hour)).sum)
      else none := by
  unfold hourTotal sum_work_hour
  rw [find?_hour_key, find?_key_self]
  by_cases hk : key ∈ (rows.map wKey).dedup
  · rw [if_pos hk, if_pos (List.mem_dedup.mp hk)]
    rfl
  · rw [if_neg hk, if_neg (fun hm => hk (List.mem_dedup.mpr hm))]
    rfl

lemma hourTotal_perm {rows rows' : List WorkedRow}
    (hperm : rows.Perm rows') (key : ℕ × ℕ × ℕ) :
    hourTotal (sum_work_hour rows') key =
      hourTotal (sum_work_hour rows) key := by
  rw [hourTotal_sum_work_hour, hourTotal_sum_work_hour]
  have hmem : (key ∈ rows.map wKey) ↔ (key ∈ rows'.map wKey) :=
    (hperm.map wKey).mem_iff
  have hsum : ((rows'.filter (fun r => decide (wKey r = key))).map
        (fun r => r.work_hour)).sum =
      ((rows.filter (fun r => decide (wKey r = key))).map
        (fun r => r.work_hour)).sum :=
    (((hperm.filter _).map _).sum_eq).symm
  by_cases h : key ∈ rows.map wKey
  · rw [if_pos h, if_pos (hmem.mp h), hsum]
  · rw [if_neg h, if_neg (fun hm => h (hmem.mpr hm))]

/-- Claim C8: the hours aggregation, read as a (year, month, branch) →
total_work_hour map, is invariant under permuting the input rows, and under
splitting the input into two batches that are concatenated before
aggregation. -/
theorem claim_C8 (rows rows' a b : List WorkedRow)
    (hperm : rows.Perm rows') (hsplit : rows.Perm (a ++ b)) :
    (∀ key, hourTotal (sum_work_hour rows') key =
      hourTotal (sum_work_hour rows) key) ∧
    (∀ key, hourTotal (sum_work_hour (a ++ b)) key =
      hourTotal (sum_work_hour rows) key) :=
  ⟨fun key => hourTotal_perm hperm key, fun key => hourTotal_perm hsplit key⟩

lemma dedup_map_dedup {α β : Type} [DecidableEq α] [DecidableEq β]
    (f : α → β) (l : List α) :
    ((l.dedup).map f).dedup = (l.map f).dedup := by
  induction l with
  | nil => simp
  | cons a t ih =>
    by_cases ha : a ∈ t
    · rw [List.dedup_cons_of_mem ha, List.map_cons,
        List.dedup_cons_of_mem (List.mem_map_of_mem f ha), ih]
    · rw [List.dedup_cons_of_not_mem ha, List.map_cons, List.map_cons]
      by_cases hfa : f a ∈ t.map f
      · have hfa2 : f a ∈ (t.dedup).map f := by
          obtain ⟨x, hx, hfx⟩ := List.mem_map.mp hfa
          exact hfx ▸ List.mem_map_of_mem f (List.mem_dedup.mpr hx)
        rw [List.dedup_cons_of_mem hfa2, List.dedup_cons_of_mem hfa, ih]
      · have hfa2 : f a ∉ (t.dedup).map f := by
          intro hmem
          obtain ⟨x, hx, hfx⟩ := List.mem_map.mp hmem
          exact hfa (hfx ▸ List.mem_map_of_mem f (List.mem_dedup.mp hx))
        rw [List.dedup_cons_of_not_mem hfa2, List.dedup_cons_of_not_mem hfa,
          ih]

/-- Projection of a stage-1 salary key to branch granularity. -/
def proj3 (k : ℕ × ℕ × ℕ × ℕ) : ℕ × ℕ × ℕ :=
  (k.1, k.2.1, k.2.2.1)

/-- The per-(year, month, branch, employee) maximal salary of a group of
enriched entries. -/
def salaryOfGroup (rows : List EnrichedRow) (k4 : ℕ × ℕ × ℕ × ℕ) : ℚ :=
  listMax ((rows.filter (fun r => decide (ymbeKey r = k4))).map
    (fun r => r.salary))

lemma sum_work_hour_keys (rows : List WorkedRow) :
    (sum_work_hour rows).map hKey = (rows.map wKey).dedup := by
  unfold sum_work_hour
  rw [List.map_map]
  exact List.map_id _

lemma sum_salary_per_branch_keys (rows : List EmpSalRow) :
    (sum_salary_per_branch rows).map sKey = (rows.map eKey).dedup := by
  unfold sum_salary_per_branch
  rw [List.map_map]
  exact List.map_id _

lemma get_salary_per_employee_keys (rows : List EnrichedRow) :
    (get_salary_per_employee rows).map eKey =
      ((rows.map ymbeKey).dedup).map proj3 := by
  unfold get_salary_per_employee
  rw [List.map_map]
  rfl

lemma pipeline_salary_keys (rows : List EnrichedRow) :
    (pipeline_salary rows).map sKey = (rows.map ymKey).dedup := by
  unfold pipeline_salary
  rw [sum_salary_per_branch_keys, get_salary_per_employee_keys,
    dedup_map_dedup, List.map_map]
  rfl

/-- Claim C9: composing the two salary-aggregation stages yields exactly one
row per (year, month, branch) key having at least one contributing entry
(the output key list is the deduplicated input key list), and each row's
`total_salary` is the sum, over the distinct (year, month, branch, employee)
keys projecting to it, of the maximal salary of that employee's group. -/
theorem claim_C9 (rows : List EnrichedRow) :
    (sum_salary_per_branch (get_salary_per_employee rows)).map sKey =
      (rows.map ymKey).dedup ∧
    ∀ s ∈ sum_salary_per_branch (get_salary_per_employee rows),
      s.total_salary =
        ((((rows.map ymbeKey).dedup).filter
          (fun k4 => decide (proj3 k4 = sKey s))).map
            (salaryOfGroup rows)).sum := by
  constructor
  · exact pipeline_salary_keys rows
  · intro s hs
    unfold sum_salary_per_branch at hs
    obtain ⟨k3, hk3, rfl⟩ := List.mem_map.mp hs
    show (((get_salary_per_employee rows).filter
        (fun r => decide (eKey r = k3))).map
          (fun r => r.salary_per_month)).sum = _
    unfold get_salary_per_employee
    rw [List.filter_map, List.map_map]
    rfl

/-- The enriched row used in the claim C9 witness. -/
def c9row : EnrichedRow :=
  ⟨1, 1, 1, 100, ⟨2020, 1, 1⟩, none, ⟨2024, 6, 1⟩, some 0, some 3600⟩

/-- Claim C9, witness: the key-list clause at a concrete one-row input. -/
theorem claim_C9_witness :
    (sum_salary_per_branch (get_salary_per_employee [c9row])).map sKey =
      ([c9row].map ymKey).dedup :=
  (claim_C9 [c9row]).1

lemma le_foldl_max (xs : List ℚ) (x : ℚ) : x ≤ xs.foldl max x := by
  induction xs generalizing x with
  | nil => exact le_refl x
  | cons y ys ih => exact le_trans (le_max_left x y) (ih (max x y))

lemma listMax_nonneg {l : List ℚ} (h : ∀ x ∈ l, 0 ≤ x) : 0 ≤ listMax l := by
  match l with
  | [] => exact le_refl 0
  | x :: xs =>
    exact le_trans (h x (List.mem_cons_self x xs)) (le_foldl_max xs x)

lemma calculate_salary_per_hour_nonneg {s h : ℚ} (hs : 0 ≤ s) (hh : 0 ≤ h) :
    0 ≤ calculate_salary_per_hour s h := by
  unfold calculate_salary_per_hour
  split_ifs with h0
  · exact le_refl 0
  · exact round2_nonneg (div_nonneg hs hh)

lemma pipeline_hours_total_nonneg (rows : List EnrichedRow) :
    ∀ h ∈ pipeline_hours rows, 0 ≤ h.total_work_hour := by
  intro h hh
  unfold pipeline_hours sum_work_hour at hh
  obtain ⟨key, hk, rfl⟩ := List.mem_map.mp hh
  show 0 ≤ (((calculate_work_hour_stage rows).filter
    (fun r => decide (wKey r = key))).map (fun r => r.work_hour)).sum
  apply List.sum_nonneg
  intro x hx
  obtain ⟨w, hw, rfl⟩ := List.mem_map.mp hx
  have hw2 := (List.mem_filter.mp hw).1
  unfold calculate_work_hour_stage at hw2
  obtain ⟨e, he, rfl⟩ := List.mem_map.mp hw2
  exact calculate_work_hour_nonneg e.checkin e.checkout

lemma pipeline_salary_total_nonneg (rows : List EnrichedRow)
    (hsal : ∀ e ∈ rows, 0 ≤ e.salary) :
    ∀ s ∈ pipeline_salary rows, 0 ≤ s.total_salary := by
  intro s hs
  unfold pipeline_salary sum_salary_per_branch at hs
  obtain ⟨k3, hk3, rfl⟩ := List.mem_map.mp hs
  show 0 ≤ (((get_salary_per_employee rows).filter
    (fun r => decide (eKey r = k3))).map (fun r => r.salary_per_month)).sum
  apply List.sum_nonneg
  intro x hx
  obtain ⟨es, hes, rfl⟩ := List.mem_map.mp hx
  have hes2 := (List.mem_filter.mp hes).1
  unfold get_salary_per_employee at hes2
  obtain ⟨k4, hk4, rfl⟩ := List.mem_map.mp hes2
  show 0 ≤ listMax ((rows.filter
    (fun r => decide (ymbeKey r = k4))).map (fun r => r.salary))
  apply listMax_nonneg
  intro v hv
  obtain ⟨e, he, rfl⟩ := List.mem_map.mp hv
  exact hsal e (List.mem_filter.mp he).1

lemma filter_salary_key_short {ss : List SalaryRow}
    (hnd : (ss.map sKey).Nodup) (key : ℕ × ℕ × ℕ) :
    ss.filter (fun s => decide (sKey s = key)) = [] ∨
    ∃ s0, ss.filter (fun s => decide (sKey s = key)) = [s0] := by
  induction ss with
  | nil => exact Or.inl rfl
  | cons s t ih =>
    rw [List.map_cons, List.nodup_cons] at hnd
    obtain ⟨hs_notin, hnd_t⟩ := hnd
    rw [List.filter_cons]
    by_cases hkey : sKey s = key
    · rw [if_pos (decide_eq_true hkey)]
      have hnil : t.filter (fun s2 => decide (sKey s2 = key)) = [] := by
        rw [List.filter_eq_nil_iff]
        intro s2 hs2
        simp only [decide_eq_true_eq]
        intro heq
        exact hs_notin (by
          rw [← hkey] at heq
          exact heq ▸ List.mem_map_of_mem sKey hs2)
      rw [hnil]
      exact Or.inr ⟨s, rfl⟩
    · rw [if_neg (by simpa using hkey)]
      exact ih hnd_t

lemma merge_keys_sub {hs : List HourRow} {ss : List SalaryRow}
    {c : CombinedRow} (hc : c ∈ merge_hour_salary hs ss) :
    cKey c ∈ hs.map hKey := by
  obtain ⟨h, hh, s, -, -, rfl⟩ := merge_mem.mp hc
  exact List.mem_map_of_mem hKey hh

lemma merge_cons (h : HourRow) (t : List HourRow) (ss : List SalaryRow) :
    merge_hour_salary (h :: t) ss =
      ((ss.filter (fun s => decide (sKey s = hKey h))).map (fun s =>
        (⟨h.year, h.month, h.branch_id, h.total_work_hour,
          s.total_salary⟩ : CombinedRow))) ++
      merge_hour_salary t ss := by
  unfold merge_hour_salary
  rw [List.flatMap_cons]

lemma merge_keys_nodup {hs : List HourRow} {ss : List SalaryRow}
    (hh : (hs.map hKey).Nodup) (hss : (ss.map sKey).Nodup) :
    ((merge_hour_salary hs ss).map cKey).Nodup := by
  induction hs with
  | nil => exact List.Pairwise.nil
  | cons h t ih =>
    rw [List.map_cons, List.nodup_cons] at hh
    obtain ⟨hh_notin, hh_t⟩ := hh
    have hrest := ih hh_t
    have hsub : ∀ x ∈ (merge_hour_salary t ss).map cKey, x ∈ t.map hKey := by
      intro x hx
      obtain ⟨c, hc, rfl⟩ := List.mem_map.mp hx
      exact merge_keys_sub hc
    rw [merge_cons, List.map_append]
    rcases filter_salary_key_short hss (hKey h) with hnil | ⟨s0, hone⟩
    · rw [hnil, List.map_nil, List.map_nil, List.nil_append]
      exact hrest
    · rw [hone, List.map_cons, List.map_nil, List.map_cons, List.map_nil,
        List.singleton_append, List.nodup_cons]
      refine ⟨?_, hrest⟩
      intro hmem
      exact hh_notin (hsub _ hmem)

/-- Claim C7 (amended): for every enriched-entry input, the final output's
(year, month, branch) keys are pairwise distinct; every per-entry worked-hours
value is non-negative; a rated row with zero total worked hours has
`salary_per_hour = 0` (but not conversely: a zero — or tiny positive —
total salary also produces a zero rate with positive hours); and
`salary_per_hour` is non-negative provided every input salary is
non-negative (a negative input salary can produce a negative rate). -/
theorem claim_C7 (rows : List EnrichedRow) :
    ((pipeline_final rows).map fKey).Nodup ∧
    (∀ ci co : Option ℕ, 0 ≤ calculate_work_hour ci co) ∧
    (∀ c ∈ pipeline_rated rows,
      c.total_work_hour = 0 → c.salary_per_hour = 0) ∧
    ((∀ e ∈ rows, 0 ≤ e.salary) →
      ∀ c ∈ pipeline_rated rows, 0 ≤ c.salary_per_hour) := by
  have hkeys : (pipeline_final rows).map fKey =
      (merge_hour_salary (pipeline_hours rows) (pipeline_salary rows)).map
        cKey := by
    unfold pipeline_final select_final pipeline_rated
      calculate_salary_per_hour_stage
    rw [List.map_map, List.map_map]
    rfl
  refine ⟨?_, calculate_work_hour_nonneg, ?_, ?_⟩
  · rw [hkeys]
    apply merge_keys_nodup
    · unfold pipeline_hours
      rw [sum_work_hour_keys]
      exact List.nodup_dedup _
    · rw [pipeline_salary_keys]
      exact List.nodup_dedup _
  · intro c hc hzero
    unfold pipeline_rated calculate_salary_per_hour_stage at hc
    obtain ⟨cb, hcb, rfl⟩ := List.mem_map.mp hc
    show calculate_salary_per_hour cb.total_salary cb.total_work_hour = 0
    have hz : cb.total_work_hour = 0 := hzero
    unfold calculate_salary_per_hour
    rw [if_pos hz]
  · intro hsal c hc
    unfold pipeline_rated calculate_salary_per_hour_stage at hc
    obtain ⟨cb, hcb, rfl⟩ := List.mem_map.mp hc
    show 0 ≤ calculate_salary_per_hour cb.total_salary cb.total_work_hour
    obtain ⟨h, hh, s, hsmem, hkey, rfl⟩ := merge_mem.mp hcb
    exact calculate_salary_per_hour_nonneg
      (pipeline_salary_total_nonneg rows hsal s hsmem)
      (pipeline_hours_total_nonneg rows h hh)

/-- The enriched row with a negative salary used to refute claim C7 as
frozen. -/
def c7rowNeg : EnrichedRow :=
  ⟨1, 1, 1, -100, ⟨2020, 1, 1⟩, none, ⟨2024, 6, 1⟩, some 0, some 3600⟩

/-- The enriched row with a zero salary used to refute claim C7 as
frozen. -/
def c7rowZero : EnrichedRow :=
  ⟨2, 2, 2, 0, ⟨2020, 1, 1⟩, none, ⟨2024, 6, 2⟩, some 0, some 3600⟩

/-- Claim C7, counterexample to the statement as frozen: on an input with a
negative salary the pipeline emits a row with `salary_per_hour < 0`
(refuting non-negativity), and on a zero-salary employee it emits
`salary_per_hour = 0` with one worked hour (refuting "zero exactly when
total hours is zero"). -/
theorem claim_C7_cex :
    ∃ c1 c2, pipeline_rated [c7rowNeg, c7rowZero] = [c1, c2] ∧
      c1.salary_per_hour < 0 ∧
      c2.salary_per_hour = 0 ∧ c2.total_work_hour ≠ 0 := by
  refine ⟨⟨2024, 6, 1, 1, -100, -100⟩, ⟨2024, 6, 2, 1, 0, 0⟩, ?_,
    by norm_num, rfl, by norm_num⟩
  simp +decide [pipeline_rated, pipeline_hours, pipeline_salary,
    sum_work_hour, get_salary_per_employee, sum_salary_per_branch,
    calculate_work_hour_stage, calculate_work_hour, merge_hour_salary,
    calculate_salary_per_hour_stage, calculate_salary_per_hour, wKey, ymKey,
    ymbeKey, eKey, hKey, sKey, listMax, List.dedup, c7rowNeg, c7rowZero,
    round2]
  norm_num
  constructor
  · rw [show (-10000 : ℚ) = ((-10000 : ℤ) : ℚ) by norm_num,
      roundHalfEven_intCast]
    norm_num
  · rw [show (0 : ℚ) = ((0 : ℤ) : ℚ) by norm_num, roundHalfEven_intCast]

/-- Claim C7, witness: the amended invariants at concrete inputs. -/
theorem claim_C7_witness :
    0 ≤ calculate_work_hour (some 0) (some 3600) ∧
    ((pipeline_final [c7rowZero]).map fKey).Nodup :=
  ⟨(claim_C7 []).2.1 (some 0) (some 3600), (claim_C7 [c7rowZero]).1⟩

/-- A worked row for the claim C8 witness. -/
def c8row1 : WorkedRow :=
  ⟨⟨1, 1, 1, 100, ⟨2020, 1, 1⟩, none, ⟨2024, 6, 1⟩, some 0, some 3600⟩, 1⟩

/-- A second worked row for the claim C8 witness. -/
def c8row2 : WorkedRow :=
  ⟨⟨2, 2, 2, 200, ⟨2020, 1, 1⟩, none, ⟨2024, 6, 2⟩, some 0, some 7200⟩, 2⟩

/-- Claim C8, witness: the permutation clause at a concrete two-row input,
swap permutation and singleton split. -/
theorem claim_C8_witness :
    hourTotal (sum_work_hour [c8row2, c8row1]) (2024, 6, 1) =
      hourTotal (sum_work_hour [c8row1, c8row2]) (2024, 6, 1) :=
  (claim_C8 [c8row1, c8row2] [c8row2, c8row1] [c8row1] [c8row2]
    (List.Perm.swap c8row2 c8row1 []) (List.Perm.refl _)).1 (2024, 6, 1)

end SalaryPerHour
